import Mathlib

/-!
# Shape/history model of `MyDrawPanel` (src/Project1/FileName.cpp)

A shallow embedding of the state-carrying half of `class MyDrawPanel`:
the five private members and the public operations that mutate them.

Modelling conventions

* `std::vector<wxString> m_shapes` is a `List String`; `back()` is the last
  element, `push_back` appends at the end, `pop_back` removes the last element.
* `std::stack<wxString>` is a `List String` whose head is the top of the stack.
* `wxString` / `std::string` are `String`; the conversions between the two
  (`ToStdString`, the implicit `wxString(std::string)`) are the identity.
* `double m_zoom` is an IEEE 754 binary64 value given by its three bit fields;
  `*=` and `/=` are the correctly rounded operations (round to nearest, ties
  to even), and a decimal literal denotes the double nearest to it.
* `Refresh()` only schedules a repaint and does not touch the members, so it
  does not appear.
* A file is the text it holds; `SaveToFile` returns the text written to the
  output stream, `LoadFromFile` receives the text of the input stream, or
  `none` when the stream could not be opened.
* The panel is private to `MyFrame`; the states it can be in are those that
  the handlers of `MyFrame` produce from the constructed panel.
-/

/-- An IEEE 754 binary64 value by its fields: the sign bit, the 11-bit biased
exponent and the 52-bit fraction. -/
structure Double where
  sign : Bool
  expo : ℕ
  frac : ℕ
deriving DecidableEq

namespace Double

/-- Infinity with the given sign: exponent field all ones, fraction zero. -/
def inf (s : Bool) : Double := ⟨s, 2047, 0⟩

/-- The quiet NaN that an invalid operation returns; its sign and payload are
not told apart. -/
def nan : Double := ⟨false, 2047, 1 <<< 51⟩

/-- Exponent field all ones and a non-zero fraction: not a number. -/
def isNaN (x : Double) : Bool := x.expo == 2047 && x.frac != 0

/-- Exponent field all ones and a zero fraction: an infinity. -/
def isInf (x : Double) : Bool := x.expo == 2047 && x.frac == 0

/-- Both fields zero: plus or minus zero. -/
def isZero (x : Double) : Bool := x.expo == 0 && x.frac == 0

/-- The integer significand of a finite value: the fraction, with the hidden
bit unless the value is subnormal. -/
def sig (x : Double) : ℕ := if x.expo = 0 then x.frac else (1 <<< 52) + x.frac

/-- The exponent of a finite value, biased by 1075: the magnitude of `x` is
`sig x * 2 ^ bexp x / 2 ^ 1075`. -/
def bexp (x : Double) : ℕ := max x.expo 1

/-- The integer part of the base-2 logarithm of `n`, found by bisection on the
shift amounts `2 ^ (k - 1)`, ..., `2`, `1`; exact for `n < 2 ^ 2 ^ k`, and zero
for `n < 2`. -/
def ilog2 : ℕ → ℕ → ℕ
  | 0, _ => 0
  | k + 1, n =>
    if n >>> (1 <<< k) = 0 then ilog2 k n else (1 <<< k) + ilog2 k (n >>> (1 <<< k))

/-- The double nearest to the non-negative rational `N / D` (`0 < D`), ties
going to the even significand, with sign `s`. In units of `2 ^ -1074`, the
smallest subnormal, the magnitude is `N1 / D`. From `2 ^ 4096` units on it is
far above the largest double, and the result is infinity. Below, `t` is the
exponent of the unit in the last place, `m1` the rounded significand, and
`bits` the exponent and fraction fields as one number, which overflows to
infinity. -/
def round (s : Bool) (N D : ℕ) : Double :=
  let N1 := N <<< 1074
  if N1 / D ≥ 1 <<< 4096 then inf s
  else
    let t := ilog2 12 (N1 / D) - 52
    let B := D <<< t
    let m := N1 / B
    let r := N1 % B
    let m1 := if 2 * r > B ∨ (2 * r = B ∧ m % 2 = 1) then m + 1 else m
    let bits := (t <<< 52) + m1
    if bits ≥ 2047 <<< 52 then inf s else ⟨s, bits >>> 52, bits % (1 <<< 52)⟩

/-- The product `x * y` of two doubles. -/
def mul (x y : Double) : Double :=
  if x.isNaN || y.isNaN then nan
  else if x.isInf then (if y.isZero then nan else inf (xor x.sign y.sign))
  else if y.isInf then (if x.isZero then nan else inf (xor x.sign y.sign))
  else round (xor x.sign y.sign) ((x.sig * y.sig) <<< (x.bexp + y.bexp)) (1 <<< 2150)

/-- The quotient `x / y` of two doubles. -/
def div (x y : Double) : Double :=
  if x.isNaN || y.isNaN then nan
  else if x.isInf then (if y.isInf then nan else inf (xor x.sign y.sign))
  else if y.isInf then ⟨xor x.sign y.sign, 0, 0⟩
  else if y.isZero then (if x.isZero then nan else inf (xor x.sign y.sign))
  else round (xor x.sign y.sign) (x.sig <<< x.bexp) (y.sig <<< y.bexp)

/-- The value of a positive decimal literal written as the fraction
`num / den`: `1.0` is `lit 10 10`, `1.2` is `lit 12 10`. -/
def lit (num den : ℕ) : Double := round false num den

end Double

/-- The private data members of `class MyDrawPanel` (lines 96-100). -/
structure MyDrawPanel where
  m_shapes : List String
  undoStack : List String
  redoStack : List String
  copiedShape : String
  m_zoom : Double
deriving DecidableEq

namespace MyDrawPanel

/-- The constructor (lines 15-21): `m_zoom(1.0), copiedShape("")`, the three
containers default-constructed empty. -/
def ctor : MyDrawPanel :=
  { m_shapes := [], undoStack := [], redoStack := [], copiedShape := "",
    m_zoom := Double.lit 10 10 }

/-- The loop `while (!stk.empty()) stk.pop();` used by `AddShape` and `ClearAll`. -/
def popAll : List String → List String
  | [] => []
  | _ :: rest => popAll rest

/-- Method `AddShape` (lines 23-28). -/
def AddShape (p : MyDrawPanel) (shape : String) : MyDrawPanel :=
  { p with
    m_shapes := p.m_shapes ++ [shape]
    undoStack := shape :: p.undoStack
    redoStack := popAll p.redoStack }

/-- Method `Undo` (lines 30-37). -/
def Undo (p : MyDrawPanel) : MyDrawPanel :=
  if h : p.m_shapes ≠ [] then
    let last := p.m_shapes.getLast h
    { p with
      m_shapes := p.m_shapes.dropLast
      redoStack := last :: p.redoStack }
  else p

/-- Method `Redo` (lines 39-47). -/
def Redo (p : MyDrawPanel) : MyDrawPanel :=
  match p.redoStack with
  | [] => p
  | redoShape :: rest =>
    { p with
      redoStack := rest
      m_shapes := p.m_shapes ++ [redoShape]
      undoStack := redoShape :: p.undoStack }

/-- Method `Copy` (lines 49-53). -/
def Copy (p : MyDrawPanel) : MyDrawPanel :=
  if h : p.m_shapes ≠ [] then { p with copiedShape := p.m_shapes.getLast h } else p

/-- Method `Paste` (lines 55-59); `IsEmpty()` holds exactly of the empty string. -/
def Paste (p : MyDrawPanel) : MyDrawPanel :=
  if p.copiedShape ≠ "" then AddShape p p.copiedShape else p

/-- Method `ZoomIn` (lines 61-64): `m_zoom *= 1.2`. -/
def ZoomIn (p : MyDrawPanel) : MyDrawPanel :=
  { p with m_zoom := Double.mul p.m_zoom (Double.lit 12 10) }

/-- Method `ZoomOut` (lines 66-69): `m_zoom /= 1.2`. -/
def ZoomOut (p : MyDrawPanel) : MyDrawPanel :=
  { p with m_zoom := Double.div p.m_zoom (Double.lit 12 10) }

/-- Method `ClearAll` (lines 71-76). -/
def ClearAll (p : MyDrawPanel) : MyDrawPanel :=
  { p with
    m_shapes := []
    undoStack := popAll p.undoStack
    redoStack := popAll p.redoStack }

/-- Method `SaveToFile` (lines 78-83): the text sent to the output stream, every
element of `m_shapes` in order, each followed by a newline. -/
def SaveToFile (p : MyDrawPanel) : String :=
  p.m_shapes.foldl (fun ofs s => ofs ++ s ++ "\n") ""

/-- One call `std::getline(ifs, line)` on the unread rest of the stream.
With nothing left to read no character is extracted and the call fails
(`none`). Otherwise the characters up to the first newline, or up to the end
of the stream, become the line, and the newline, when there is one, is
extracted and dropped. -/
def getline : List Char → Option (String × List Char)
  | [] => none
  | c :: cs =>
    some (String.mk ((c :: cs).takeWhile (fun x => x != '\n')),
          ((c :: cs).dropWhile (fun x => x != '\n')).tail)

/-- The loop `while (std::getline(ifs, line)) m_shapes.push_back(line);`
(lines 89-91), run for at most `fuel` calls of `getline`. -/
def loadLoop : Nat → List Char → List String → List String
  | 0, _, shapes => shapes
  | fuel + 1, ifs, shapes =>
    match getline ifs with
    | none => shapes
    | some (line, rest) => loadLoop fuel rest (shapes ++ [line])

/-- Method `LoadFromFile` (lines 85-93). A stream that could not be opened makes the
first `getline` fail. Every successful `getline` extracts at least one
character, so one call more than the length of the text is enough fuel. -/
def LoadFromFile (p : MyDrawPanel) (file : Option String) : MyDrawPanel :=
  match file with
  | none => { p with m_shapes := [] }
  | some text => { p with m_shapes := loadLoop (text.length + 1) text.data [] }

end MyDrawPanel

open MyDrawPanel

namespace MyFrame

/-- The items of the palette tree built by the constructor of `MyFrame`
(lines 260-266): the root, the two groups and the four components. -/
inductive TreeItem where
  | root
  | logicId
  | outputId
  | itemAND
  | itemOR
  | itemNOT
  | itemLED
deriving DecidableEq

/-- The text each item was created with (lines 260-266). -/
def GetItemText : TreeItem → String
  | .root => "组件库"
  | .logicId => "逻辑门"
  | .outputId => "输出"
  | .itemAND => "AND"
  | .itemOR => "OR"
  | .itemNOT => "NOT"
  | .itemLED => "LED"

/-- The handler bound to `wxEVT_TREE_SEL_CHANGED` (lines 269-276); `none` is an
item that is not `IsOk()`. -/
def OnTreeSelChanged (p : MyDrawPanel) (item : Option TreeItem) : MyDrawPanel :=
  match item with
  | none => p
  | some it =>
    let name := GetItemText it
    if name ≠ "逻辑门" ∧ name ≠ "输出" ∧ name ≠ "组件库" then AddShape p name else p

/-- What the user can make `MyFrame` do to its panel: a selection in the tree
and the menu handlers of lines 286-317. `OnOpen` carries what the file dialog
and the file system answer: `none` when the dialog is cancelled, otherwise the
stream of the chosen file. `OnSave` stands for `OnSave` and `OnSaveAs`, which
only write. -/
inductive Event where
  | TreeSelChanged (item : Option TreeItem)
  | OnNew
  | OnOpen (dialog : Option (Option String))
  | OnSave
  | OnUndo
  | OnRedo
  | OnCopy
  | OnPaste
  | OnZoomin
  | OnZoomout

/-- The effect of one event on the panel (lines 269-276 and 286-317). -/
def handle (p : MyDrawPanel) : Event → MyDrawPanel
  | .TreeSelChanged item => OnTreeSelChanged p item
  | .OnNew => ClearAll p
  | .OnOpen none => p
  | .OnOpen (some file) => LoadFromFile p file
  | .OnSave => p
  | .OnUndo => Undo p
  | .OnRedo => Redo p
  | .OnCopy => Copy p
  | .OnPaste => Paste p
  | .OnZoomin => ZoomIn p
  | .OnZoomout => ZoomOut p

/-- The panel after the events `evs`, starting from the panel that the
constructor of `MyFrame` creates (line 256). -/
def panelAfter (evs : List Event) : MyDrawPanel := evs.foldl handle ctor

end MyFrame

/-- No tag of the shape sequence or of the redo stack, nor the clipboard, holds
a newline character. -/
def NewlineFree (p : MyDrawPanel) : Prop :=
  (∀ t ∈ p.m_shapes, '\n' ∉ t.data) ∧ (∀ t ∈ p.redoStack, '\n' ∉ t.data) ∧
    '\n' ∉ p.copiedShape.data

/-- The characters of a text made of the lines `ts`, each one followed by a
newline. Used to describe what `SaveToFile` writes and `LoadFromFile` reads. -/
def joinLines : List String → List Char
  | [] => []
  | t :: ts => t.data ++ '\n' :: joinLines ts

/-! ## Double arithmetic on known values -/

/-- The arithmetic on doubles gives the bit patterns that IEEE 754 prescribes:
`0.1` is `0x3FB999999999999A`, `0.1 * 3.0` is `0x3FD3333333333334`, `1.0 / 3.0`
is `0x3FD5555555555555`, `-1.2 * 1.2` is `0xBFF70A3D70A3D70A`; the largest
double times `1.2` is infinity; the smallest subnormal stays itself when
divided by `1.2` and becomes zero when halved; the smallest normal divided by
`1.2` is the subnormal `0x000D555555555555`. -/
theorem Double_known_values :
    Double.lit 1 10 = ⟨false, 1019, 0x999999999999A⟩ ∧
    Double.mul (Double.lit 1 10) (Double.lit 3 1) = ⟨false, 1021, 0x3333333333334⟩ ∧
    Double.div (Double.lit 1 1) (Double.lit 3 1) = ⟨false, 1021, 0x5555555555555⟩ ∧
    Double.mul ⟨true, 1023, 0x3333333333333⟩ (Double.lit 12 10)
      = ⟨true, 1023, 0x70A3D70A3D70A⟩ ∧
    Double.mul ⟨false, 2046, 0xFFFFFFFFFFFFF⟩ (Double.lit 12 10) = Double.inf false ∧
    Double.div ⟨false, 0, 1⟩ (Double.lit 12 10) = ⟨false, 0, 1⟩ ∧
    Double.div ⟨false, 0, 1⟩ (Double.lit 2 1) = ⟨false, 0, 0⟩ ∧
    Double.div ⟨false, 1, 0⟩ (Double.lit 12 10) = ⟨false, 0, 0xD555555555555⟩ := by
  decide

/-! ## Basic facts about the operations -/

theorem popAll_eq_nil (stk : List String) : popAll stk = [] := by
  induction stk with
  | nil => rfl
  | cons _ rest ih => simpa [popAll] using ih

theorem AddShape_eq (p : MyDrawPanel) (shape : String) :
    AddShape p shape =
      { p with
        m_shapes := p.m_shapes ++ [shape]
        undoStack := shape :: p.undoStack
        redoStack := [] } := by
  simp [AddShape, popAll_eq_nil]

theorem Undo_snoc (p : MyDrawPanel) (s : List String) (x : String)
    (h : p.m_shapes = s ++ [x]) :
    Undo p = { p with m_shapes := s, redoStack := x :: p.redoStack } := by
  simp [Undo, h]

theorem Undo_nil (p : MyDrawPanel) (h : p.m_shapes = []) : Undo p = p := by
  simp [Undo, h]

theorem Redo_cons (p : MyDrawPanel) (x : String) (rest : List String)
    (h : p.redoStack = x :: rest) :
    Redo p =
      { p with
        redoStack := rest
        m_shapes := p.m_shapes ++ [x]
        undoStack := x :: p.undoStack } := by
  simp [Redo, h]

theorem Redo_nil (p : MyDrawPanel) (h : p.redoStack = []) : Redo p = p := by
  simp [Redo, h]

/-- Adding shapes one after the other always ends with an empty redo stack,
provided it started with one. -/
theorem foldl_AddShape_redoStack (tags : List String) (p : MyDrawPanel)
    (h : p.redoStack = []) : (tags.foldl AddShape p).redoStack = [] := by
  induction tags generalizing p with
  | nil => simpa using h
  | cons t ts ih =>
    rw [List.foldl_cons]
    exact ih _ (by simp [AddShape_eq])

/-- On a non-empty sequence with any redo stack, `Undo` then `Redo` gives the
sequence and the redo stack back. -/
theorem Redo_Undo_of_ne_nil (p : MyDrawPanel) (h : p.m_shapes ≠ []) :
    (Redo (Undo p)).m_shapes = p.m_shapes ∧ (Redo (Undo p)).redoStack = p.redoStack := by
  have hs := List.dropLast_append_getLast h
  rw [Undo_snoc p _ _ hs.symm, Redo_cons _ (p.m_shapes.getLast h) p.redoStack rfl]
  exact ⟨hs, rfl⟩

/-! ## The undo stack -/

/-- The method `Undo` never touches the undo stack. -/
theorem Undo_undoStack (p : MyDrawPanel) : (Undo p).undoStack = p.undoStack := by
  unfold Undo
  split <;> rfl

/-- Every operation other than `Undo` keeps the undo stack, read from bottom to
top, equal to the shape sequence once it is. -/
theorem undoStack_mirror_preserved (p : MyDrawPanel) (t : String)
    (h : p.undoStack.reverse = p.m_shapes) :
    (AddShape p t).undoStack.reverse = (AddShape p t).m_shapes ∧
    (Redo p).undoStack.reverse = (Redo p).m_shapes ∧
    (Copy p).undoStack.reverse = (Copy p).m_shapes ∧
    (Paste p).undoStack.reverse = (Paste p).m_shapes ∧
    (ClearAll p).undoStack.reverse = (ClearAll p).m_shapes := by
  refine ⟨by simp [AddShape_eq, h], ?_, ?_, ?_, by simp [ClearAll, popAll_eq_nil]⟩
  · unfold Redo
    split
    · exact h
    · simp [h]
  · unfold Copy
    split
    · exact h
    · exact h
  · unfold Paste
    split
    · simp [AddShape_eq, h]
    · exact h

/-! ## Text streams -/

theorem SaveToFile_foldl_data (ts : List String) (ofs : String) :
    (ts.foldl (fun ofs s => ofs ++ s ++ "\n") ofs).data = ofs.data ++ joinLines ts := by
  induction ts generalizing ofs with
  | nil => simp [joinLines]
  | cons t ts ih =>
    rw [List.foldl_cons, ih]
    simp [joinLines, String.data_append]

theorem SaveToFile_data (p : MyDrawPanel) : (SaveToFile p).data = joinLines p.m_shapes := by
  simp [SaveToFile, SaveToFile_foldl_data]

theorem joinLines_append (ts us : List String) :
    joinLines (ts ++ us) = joinLines ts ++ joinLines us := by
  induction ts with
  | nil => rfl
  | cons t ts ih => simp [joinLines, ih]

/-- A text either has no newline, or splits at its first newline. -/
theorem span_newline (l : List Char) :
    ('\n' ∉ l ∧ l.takeWhile (fun x => x != '\n') = l ∧ l.dropWhile (fun x => x != '\n') = []) ∨
    ∃ a b, '\n' ∉ a ∧ l = a ++ '\n' :: b ∧ l.takeWhile (fun x => x != '\n') = a ∧
      l.dropWhile (fun x => x != '\n') = '\n' :: b := by
  induction l with
  | nil => left; simp
  | cons c cs ih =>
    by_cases hc : c = '\n'
    · right
      exact ⟨[], cs, by simp, by simp [hc], by simp [hc], by simp [hc]⟩
    · rcases ih with ⟨h1, h2, h3⟩ | ⟨a, b, h1, h2, h3, h4⟩
      · left
        refine ⟨?_, ?_, ?_⟩
        · simp [h1, Ne.symm hc]
        · simp [hc, h2]
        · simp [hc, h3]
      · right
        refine ⟨c :: a, b, ?_, ?_, ?_, ?_⟩
        · simp [h1, Ne.symm hc]
        · simp [h2]
        · simp [hc, h3]
        · simp [hc, h4]

theorem getline_nil : getline [] = none := rfl

/-- What one `getline` does on a stream that still has characters: either the
rest holds no newline and is taken whole, or the line ends at the first
newline, which is dropped. -/
theorem getline_cases (ifs : List Char) (h : ifs ≠ []) :
    ('\n' ∉ ifs ∧ getline ifs = some (String.mk ifs, [])) ∨
    ∃ a b, '\n' ∉ a ∧ ifs = a ++ '\n' :: b ∧ getline ifs = some (String.mk a, b) := by
  cases ifs with
  | nil => exact absurd rfl h
  | cons c cs =>
    rcases span_newline (c :: cs) with ⟨h1, h2, h3⟩ | ⟨a, b, h1, h2, h3, h4⟩
    · left
      refine ⟨h1, ?_⟩
      simp only [getline]
      rw [h2, h3]
      rfl
    · right
      refine ⟨a, b, h1, h2, ?_⟩
      simp only [getline]
      rw [h3, h4]
      rfl

theorem getline_line (a b : List Char) (h : '\n' ∉ a) :
    getline (a ++ '\n' :: b) = some (String.mk a, b) := by
  rcases getline_cases (a ++ '\n' :: b) (by simp) with ⟨h1, _⟩ | ⟨a', b', h1, h2, h3⟩
  · exact absurd (by simp) h1
  · have key : ∀ (x y x' y' : List Char), '\n' ∉ x → '\n' ∉ x' →
        x ++ '\n' :: y = x' ++ '\n' :: y' → x = x' ∧ y = y' := by
      intro x
      induction x with
      | nil =>
        intro y x' y' _ hx' e
        cases x' with
        | nil => simpa using e
        | cons d x' =>
          simp at e
          exact absurd (by simp [← e.1]) hx'
      | cons d x ih =>
        intro y x' y' hx hx' e
        cases x' with
        | nil =>
          simp at e
          exact absurd (by simp [e.1]) hx
        | cons d' x' =>
          simp at e
          have := ih y x' y' (fun hm => hx (List.mem_cons_of_mem _ hm))
            (fun hm => hx' (List.mem_cons_of_mem _ hm)) e.2
          exact ⟨by rw [e.1, this.1], this.2⟩
    obtain ⟨e1, e2⟩ := key a b a' b' h h1 h2
    rw [h3, e1, e2]

/-- Reading back a text made of newline-free lines, each followed by a
newline, appends exactly those lines; any fuel not below the length of the
text is enough. -/
theorem loadLoop_joinLines (ts : List String) (fuel : ℕ) (shapes : List String)
    (hts : ∀ t ∈ ts, '\n' ∉ t.data) (hfuel : (joinLines ts).length ≤ fuel) :
    loadLoop fuel (joinLines ts) shapes = shapes ++ ts := by
  induction ts generalizing fuel shapes with
  | nil =>
    cases fuel with
    | zero => simp [loadLoop]
    | succ f => simp [loadLoop, joinLines, getline_nil]
  | cons t ts ih =>
    cases fuel with
    | zero => simp [joinLines] at hfuel
    | succ f =>
      have ht : '\n' ∉ t.data := hts t (List.mem_cons_self _ _)
      have hf : (joinLines ts).length ≤ f := by
        simp [joinLines] at hfuel
        omega
      simp only [loadLoop, joinLines]
      rw [getline_line _ _ ht]
      simp only
      rw [ih f (shapes ++ [t]) (fun u hu => hts u (List.mem_cons_of_mem _ hu)) hf]
      simp

/-- The lines that the loading loop appends hold no newline, and joined again,
each followed by a newline, they give the text that was read, completed by a
final newline when the text did not end in one. -/
theorem loadLoop_spec (fuel : ℕ) (ifs : List Char) (shapes : List String)
    (hfuel : ifs.length ≤ fuel) :
    ∃ ls, loadLoop fuel ifs shapes = shapes ++ ls ∧ (∀ t ∈ ls, '\n' ∉ t.data) ∧
      joinLines ls = if ifs = [] ∨ ifs.getLast? = some '\n' then ifs else ifs ++ ['\n'] := by
  induction fuel generalizing ifs shapes with
  | zero =>
    have h0 : ifs = [] := List.length_eq_zero.mp (Nat.le_zero.mp hfuel)
    exact ⟨[], by simp [loadLoop], by simp, by simp [h0, joinLines]⟩
  | succ f ih =>
    by_cases h0 : ifs = []
    · exact ⟨[], by simp [loadLoop, h0, getline_nil], by simp, by simp [h0, joinLines]⟩
    · rcases getline_cases ifs h0 with ⟨h1, h2⟩ | ⟨a, b, h1, h2, h3⟩
      · refine ⟨[String.mk ifs], ?_, ?_, ?_⟩
        · simp only [loadLoop, h2]
          cases f with
          | zero => simp [loadLoop]
          | succ g => simp [loadLoop, getline_nil]
        · simpa using h1
        · have hl : ifs.getLast? ≠ some '\n' := by
            intro hl
            exact h1 (List.mem_of_getLast?_eq_some hl)
          simp [joinLines, h0, hl]
      · have hb : b.length ≤ f := by
          rw [h2] at hfuel
          simp at hfuel
          omega
        obtain ⟨ls, e1, e2, e3⟩ := ih b (shapes ++ [String.mk a]) hb
        refine ⟨String.mk a :: ls, ?_, ?_, ?_⟩
        · simp only [loadLoop, h3]
          rw [e1]
          simp
        · intro t ht
          rcases List.mem_cons.mp ht with rfl | ht
          · simpa using h1
          · exact e2 t ht
        · simp only [joinLines, e3, h2]
          by_cases hb0 : b = []
          · simp [hb0]
          · have hl : (a ++ '\n' :: b).getLast? = b.getLast? := by
              rw [List.getLast?_append_cons]
              cases b with
              | nil => exact absurd rfl hb0
              | cons d b => rw [List.getLast?_cons_cons]
            simp only [hb0, hl, false_or, List.append_eq_nil, and_false, reduceCtorEq]
            split <;> simp

/-- Any two amounts of fuel not below the length of the unread text give the
same result: the loop has ended by itself before the fuel runs out. -/
theorem loadLoop_fuel (f g : ℕ) (ifs : List Char) (shapes : List String)
    (hf : ifs.length ≤ f) (hg : ifs.length ≤ g) :
    loadLoop f ifs shapes = loadLoop g ifs shapes := by
  induction f generalizing g ifs shapes with
  | zero =>
    have h0 : ifs = [] := List.length_eq_zero.mp (Nat.le_zero.mp hf)
    cases g with
    | zero => rfl
    | succ g => simp [loadLoop, h0, getline_nil]
  | succ f ih =>
    by_cases h0 : ifs = []
    · cases g with
      | zero => simp [loadLoop, h0, getline_nil]
      | succ g => simp [loadLoop, h0, getline_nil]
    · cases g with
      | zero => exact absurd (List.length_eq_zero.mp (Nat.le_zero.mp hg)) h0
      | succ g =>
        rcases getline_cases ifs h0 with ⟨_, h2⟩ | ⟨a, b, _, h2, h3⟩
        · simp only [loadLoop, h2]
          exact ih g [] _ (by simp) (by simp)
        · rw [h2] at hf hg
          simp at hf hg
          simp only [loadLoop, h3]
          exact ih g b _ (by omega) (by omega)

/-- A sequence whose tags hold no newline is read back from the text that
`SaveToFile` writes for it, into any panel. -/
theorem LoadFromFile_SaveToFile_of_newline_free (p q : MyDrawPanel)
    (h : ∀ t ∈ p.m_shapes, '\n' ∉ t.data) :
    (LoadFromFile q (some (SaveToFile p))).m_shapes = p.m_shapes := by
  simp only [LoadFromFile, SaveToFile_data]
  rw [loadLoop_joinLines p.m_shapes _ [] h]
  · simp
  · simp [String.length, SaveToFile_data]

/-! ## The states the frame can put its panel in -/

theorem NewlineFree_ctor : NewlineFree ctor :=
  ⟨by simp [ctor], by simp [ctor], by simp [ctor]⟩

theorem NewlineFree_AddShape (p : MyDrawPanel) (t : String) (h : NewlineFree p)
    (ht : '\n' ∉ t.data) : NewlineFree (AddShape p t) := by
  obtain ⟨h1, _, h3⟩ := h
  rw [AddShape_eq]
  refine ⟨?_, by simp, h3⟩
  intro u hu
  rcases List.mem_append.mp hu with hu | hu
  · exact h1 u hu
  · rw [List.mem_singleton.mp hu]
    exact ht

theorem NewlineFree_Undo (p : MyDrawPanel) (h : NewlineFree p) : NewlineFree (Undo p) := by
  obtain ⟨h1, h2, h3⟩ := h
  unfold Undo
  split
  · rename_i hne
    refine ⟨fun u hu => h1 u (List.dropLast_subset _ hu), ?_, h3⟩
    intro u hu
    rcases List.mem_cons.mp hu with hu | hu
    · rw [hu]
      exact h1 _ (List.getLast_mem hne)
    · exact h2 u hu
  · exact ⟨h1, h2, h3⟩

theorem NewlineFree_Redo (p : MyDrawPanel) (h : NewlineFree p) : NewlineFree (Redo p) := by
  obtain ⟨h1, h2, h3⟩ := h
  cases hr : p.redoStack with
  | nil =>
    rw [Redo_nil p hr]
    exact ⟨h1, h2, h3⟩
  | cons x rest =>
    rw [Redo_cons p x rest hr]
    rw [hr] at h2
    refine ⟨?_, fun u hu => h2 u (List.mem_cons_of_mem _ hu), h3⟩
    intro u hu
    rcases List.mem_append.mp hu with hu | hu
    · exact h1 u hu
    · rw [List.mem_singleton.mp hu]
      exact h2 x (List.mem_cons_self _ _)

theorem NewlineFree_Copy (p : MyDrawPanel) (h : NewlineFree p) : NewlineFree (Copy p) := by
  obtain ⟨h1, h2, h3⟩ := h
  unfold Copy
  split
  · rename_i hne
    exact ⟨h1, h2, h1 _ (List.getLast_mem hne)⟩
  · exact ⟨h1, h2, h3⟩

theorem NewlineFree_Paste (p : MyDrawPanel) (h : NewlineFree p) : NewlineFree (Paste p) := by
  unfold Paste
  split
  · exact NewlineFree_AddShape p _ h h.2.2
  · exact h

theorem NewlineFree_ClearAll (p : MyDrawPanel) (h : NewlineFree p) :
    NewlineFree (ClearAll p) := by
  refine ⟨?_, ?_, h.2.2⟩
  · simp [ClearAll]
  · simp [ClearAll, popAll_eq_nil]

theorem NewlineFree_LoadFromFile (p : MyDrawPanel) (file : Option String)
    (h : NewlineFree p) : NewlineFree (LoadFromFile p file) := by
  cases file with
  | none => exact ⟨by simp [LoadFromFile], h.2.1, h.2.2⟩
  | some text =>
    obtain ⟨ls, e1, e2, _⟩ :=
      loadLoop_spec (text.length + 1) text.data [] (Nat.le_succ text.data.length)
    refine ⟨?_, h.2.1, h.2.2⟩
    simp only [LoadFromFile, e1, List.nil_append]
    exact e2

theorem NewlineFree_OnTreeSelChanged (p : MyDrawPanel) (item : Option MyFrame.TreeItem)
    (h : NewlineFree p) : NewlineFree (MyFrame.OnTreeSelChanged p item) := by
  cases item with
  | none => exact h
  | some it =>
    have ht : '\n' ∉ (MyFrame.GetItemText it).data := by
      cases it <;> decide
    simp only [MyFrame.OnTreeSelChanged]
    split
    · exact NewlineFree_AddShape p _ h ht
    · exact h

theorem NewlineFree_handle (p : MyDrawPanel) (ev : MyFrame.Event) (h : NewlineFree p) :
    NewlineFree (MyFrame.handle p ev) := by
  cases ev with
  | TreeSelChanged item => exact NewlineFree_OnTreeSelChanged p item h
  | OnNew => exact NewlineFree_ClearAll p h
  | OnOpen dialog =>
    cases dialog with
    | none => exact h
    | some file => exact NewlineFree_LoadFromFile p file h
  | OnSave => exact h
  | OnUndo => exact NewlineFree_Undo p h
  | OnRedo => exact NewlineFree_Redo p h
  | OnCopy => exact NewlineFree_Copy p h
  | OnPaste => exact NewlineFree_Paste p h
  | OnZoomin => exact h
  | OnZoomout => exact h

theorem NewlineFree_foldl_handle (evs : List MyFrame.Event) (p : MyDrawPanel)
    (h : NewlineFree p) : NewlineFree (evs.foldl MyFrame.handle p) := by
  induction evs generalizing p with
  | nil => exact h
  | cons ev evs ih =>
    rw [List.foldl_cons]
    exact ih _ (NewlineFree_handle p ev h)

/-- Whatever the user does, no tag that the panel holds has a newline in it. -/
theorem NewlineFree_panelAfter (evs : List MyFrame.Event) :
    NewlineFree (MyFrame.panelAfter evs) :=
  NewlineFree_foldl_handle evs ctor NewlineFree_ctor

/-! ## The claims -/

/-- C1: from the initial empty document, after `AddShape` on each tag of any
list in order, `Undo` followed immediately by `Redo` leaves the shape sequence
exactly as it was before the `Undo`. -/
theorem C1_undo_redo_after_adds (tags : List String) :
    (Redo (Undo (tags.foldl AddShape ctor))).m_shapes = (tags.foldl AddShape ctor).m_shapes := by
  by_cases h : (tags.foldl AddShape ctor).m_shapes = []
  · have hr : (tags.foldl AddShape ctor).redoStack = [] :=
      foldl_AddShape_redoStack tags ctor rfl
    rw [Undo_nil _ h, Redo_nil _ hr]
  · exact (Redo_Undo_of_ne_nil _ h).1

/-- C2: in every state, one or more `Undo` calls followed by `AddShape t` leave
the redo stack empty, and a `Redo` after that changes nothing at all; the
example of the specification (add AND, add OR, undo, redo, add NOT) runs
through the sequences `[AND]`, `[AND, OR]` and ends in `[AND, OR, NOT]` with
an empty redo stack. -/
theorem C2_add_after_undo_discards_redo :
    (∀ (p : MyDrawPanel) (t : String) (k : ℕ),
      (AddShape (Undo^[k + 1] p) t).redoStack = [] ∧
      Redo (AddShape (Undo^[k + 1] p) t) = AddShape (Undo^[k + 1] p) t ∧
      (Redo (AddShape (Undo^[k + 1] p) t)).m_shapes = (Undo^[k + 1] p).m_shapes ++ [t]) ∧
    (Undo (AddShape (AddShape ctor "AND") "OR")).m_shapes = ["AND"] ∧
    (Redo (Undo (AddShape (AddShape ctor "AND") "OR"))).m_shapes = ["AND", "OR"] ∧
    (AddShape (Redo (Undo (AddShape (AddShape ctor "AND") "OR"))) "NOT").m_shapes
      = ["AND", "OR", "NOT"] ∧
    (AddShape (Redo (Undo (AddShape (AddShape ctor "AND") "OR"))) "NOT").redoStack = [] ∧
    Redo (AddShape (Redo (Undo (AddShape (AddShape ctor "AND") "OR"))) "NOT")
      = AddShape (Redo (Undo (AddShape (AddShape ctor "AND") "OR"))) "NOT" := by
  refine ⟨?_, by decide, by decide, by decide, by decide, Redo_nil _ (by decide)⟩
  intro p t k
  have hr : (AddShape (Undo^[k + 1] p) t).redoStack = [] := by simp [AddShape_eq]
  refine ⟨hr, Redo_nil _ hr, ?_⟩
  rw [Redo_nil _ hr]
  simp [AddShape_eq]

/-- C3: when the shape sequence is `s` followed by a last tag `x`, `Undo`
leaves the sequence `s` and pushes `x` on top of the old redo stack; the
clipboard and the zoom factor (and the undo stack) are unchanged. -/
theorem C3_undo_pops_last (p : MyDrawPanel) (s : List String) (x : String)
    (h : p.m_shapes = s ++ [x]) :
    (Undo p).m_shapes = s ∧ (Undo p).redoStack = x :: p.redoStack ∧
    (Undo p).copiedShape = p.copiedShape ∧ (Undo p).m_zoom = p.m_zoom ∧
    (Undo p).undoStack = p.undoStack := by
  rw [Undo_snoc p s x h]
  exact ⟨rfl, rfl, rfl, rfl, rfl⟩

theorem C3_undo_pops_last_witness :
    (Undo (AddShape (AddShape ctor "AND") "OR")).m_shapes = ["AND"] ∧
    (Undo (AddShape (AddShape ctor "AND") "OR")).redoStack
      = "OR" :: (AddShape (AddShape ctor "AND") "OR").redoStack ∧
    (Undo (AddShape (AddShape ctor "AND") "OR")).copiedShape
      = (AddShape (AddShape ctor "AND") "OR").copiedShape ∧
    (Undo (AddShape (AddShape ctor "AND") "OR")).m_zoom
      = (AddShape (AddShape ctor "AND") "OR").m_zoom ∧
    (Undo (AddShape (AddShape ctor "AND") "OR")).undoStack
      = (AddShape (AddShape ctor "AND") "OR").undoStack :=
  C3_undo_pops_last (AddShape (AddShape ctor "AND") "OR") ["AND"] "OR" (by decide)

/-- C4 fails as stated: opening a file that holds one empty line gives the
non-empty sequence `[""]`; `Copy` then stores the empty string, which `Paste`
takes for an empty clipboard, so nothing is appended. -/
theorem C4_copy_paste_empty_tag_counterexample :
    (LoadFromFile ctor (some "\n")).m_shapes = [""] ∧
    (Paste (Copy (LoadFromFile ctor (some "\n")))).m_shapes = [""] ∧
    (Paste (Copy (LoadFromFile ctor (some "\n")))).m_shapes ≠ [""] ++ [""] := by
  decide

/-- C4 (amended): when the shape sequence is non-empty and its last entry is
not the empty string, `Copy` followed by `Paste` gives the old sequence with
exactly one more entry appended, equal to the previously last entry. -/
theorem C4_copy_paste_appends_last (p : MyDrawPanel) (h : p.m_shapes ≠ [])
    (hlast : p.m_shapes.getLast h ≠ "") :
    (Paste (Copy p)).m_shapes = p.m_shapes ++ [p.m_shapes.getLast h] ∧
    (Paste (Copy p)).m_shapes.length = p.m_shapes.length + 1 := by
  have hc : Copy p = { p with copiedShape := p.m_shapes.getLast h } := by
    simp [Copy, h]
  have hp : (Paste (Copy p)).m_shapes = p.m_shapes ++ [p.m_shapes.getLast h] := by
    rw [hc]
    simp [Paste, hlast, AddShape_eq]
  exact ⟨hp, by rw [hp]; simp⟩

theorem C4_copy_paste_appends_last_witness :
    (Paste (Copy (AddShape (AddShape ctor "AND") "OR"))).m_shapes
      = (AddShape (AddShape ctor "AND") "OR").m_shapes
        ++ [(AddShape (AddShape ctor "AND") "OR").m_shapes.getLast (by decide)] ∧
    (Paste (Copy (AddShape (AddShape ctor "AND") "OR"))).m_shapes.length
      = (AddShape (AddShape ctor "AND") "OR").m_shapes.length + 1 :=
  C4_copy_paste_appends_last (AddShape (AddShape ctor "AND") "OR") (by decide) (by decide)

/-- C6: the operations on empty structures change nothing in the whole state:
`Undo` and `Copy` when the shape sequence is empty, `Redo` when the redo stack
is empty, `Paste` when the clipboard is empty. -/
theorem C6_empty_structures_noop (p : MyDrawPanel) :
    (p.m_shapes = [] → Undo p = p) ∧
    (p.redoStack = [] → Redo p = p) ∧
    (p.m_shapes = [] → Copy p = p) ∧
    (p.copiedShape = "" → Paste p = p) := by
  refine ⟨Undo_nil p, Redo_nil p, ?_, ?_⟩
  · intro h
    simp [Copy, h]
  · intro h
    simp [Paste, h]

theorem C6_empty_structures_noop_witness :
    Undo ctor = ctor ∧ Redo ctor = ctor ∧ Copy ctor = ctor ∧ Paste ctor = ctor :=
  ⟨(C6_empty_structures_noop ctor).1 rfl, (C6_empty_structures_noop ctor).2.1 rfl,
   (C6_empty_structures_noop ctor).2.2.1 rfl, (C6_empty_structures_noop ctor).2.2.2 rfl⟩

/-- C9 on the code: after `AddShape "AND"` and `Undo` from the initial
document the shape sequence is empty while the undo stack still holds `AND`;
`Undo` removed the tag from the sequence and left the undo stack alone. -/
theorem C9_undo_leaves_undoStack :
    (AddShape ctor "AND").undoStack.reverse = (AddShape ctor "AND").m_shapes ∧
    (Undo (AddShape ctor "AND")).m_shapes = [] ∧
    (Undo (AddShape ctor "AND")).undoStack = ["AND"] ∧
    (Undo (AddShape ctor "AND")).undoStack.reverse ≠ (Undo (AddShape ctor "AND")).m_shapes := by
  decide

/-- C10: for `k` not larger than the length of the shape sequence, `k` times
`Undo` followed by `k` times `Redo` gives back both the shape sequence and the
redo stack. -/
theorem C10_k_undo_k_redo (k : ℕ) (p : MyDrawPanel) (hk : k ≤ p.m_shapes.length) :
    (Redo^[k] (Undo^[k] p)).m_shapes = p.m_shapes ∧
    (Redo^[k] (Undo^[k] p)).redoStack = p.redoStack := by
  induction k generalizing p with
  | zero => exact ⟨rfl, rfl⟩
  | succ k ih =>
    have hne : p.m_shapes ≠ [] := by
      intro h0
      rw [h0] at hk
      simp at hk
    have hs := List.dropLast_append_getLast hne
    have hu := Undo_snoc p _ _ hs.symm
    have hlen : k ≤ (Undo p).m_shapes.length := by
      rw [hu]
      simp only [List.length_dropLast]
      omega
    obtain ⟨h1, h2⟩ := ih (Undo p) hlen
    rw [Function.iterate_succ_apply Undo, Function.iterate_succ_apply' Redo]
    have h2' : (Redo^[k] (Undo^[k] (Undo p))).redoStack
        = p.m_shapes.getLast hne :: p.redoStack := by
      rw [h2, hu]
    rw [Redo_cons _ _ _ h2']
    refine ⟨?_, rfl⟩
    show (Redo^[k] (Undo^[k] (Undo p))).m_shapes ++ [p.m_shapes.getLast hne] = p.m_shapes
    rw [h1, hu]
    exact hs

theorem C10_k_undo_k_redo_witness :
    2 ≤ (AddShape (AddShape (AddShape ctor "AND") "OR") "NOT").m_shapes.length ∧
    (Redo^[2] (Undo^[2] (AddShape (AddShape (AddShape ctor "AND") "OR") "NOT"))).m_shapes
      = (AddShape (AddShape (AddShape ctor "AND") "OR") "NOT").m_shapes ∧
    (Redo^[2] (Undo^[2] (AddShape (AddShape (AddShape ctor "AND") "OR") "NOT"))).redoStack
      = (AddShape (AddShape (AddShape ctor "AND") "OR") "NOT").redoStack :=
  ⟨by decide,
   C10_k_undo_k_redo 2 (AddShape (AddShape (AddShape ctor "AND") "OR") "NOT") (by decide)⟩

/-- C5: for every shape sequence the panel can hold, that is after any events
of the frame, `SaveToFile` followed by `LoadFromFile` of the written text, into
the same panel or any other, reproduces the tag sequence exactly: same tags,
same order, same length. -/
theorem C5_save_load_roundtrip (evs : List MyFrame.Event) (q : MyDrawPanel) :
    (LoadFromFile (MyFrame.panelAfter evs)
        (some (SaveToFile (MyFrame.panelAfter evs)))).m_shapes
      = (MyFrame.panelAfter evs).m_shapes ∧
    (LoadFromFile q (some (SaveToFile (MyFrame.panelAfter evs)))).m_shapes
      = (MyFrame.panelAfter evs).m_shapes ∧
    (LoadFromFile q (some (SaveToFile (MyFrame.panelAfter evs)))).m_shapes.length
      = (MyFrame.panelAfter evs).m_shapes.length := by
  have h := (NewlineFree_panelAfter evs).1
  have key := fun r => LoadFromFile_SaveToFile_of_newline_free (MyFrame.panelAfter evs) r h
  exact ⟨key _, key q, by rw [key q]⟩

/-- C7: `LoadFromFile` of a text leaves the undo stack, the redo stack, the
clipboard and the zoom factor as they were, and the new shape sequence does not
depend on the old one: it is what loading into the initial document gives. The
new sequence is the lines of the text in file order: no tag holds a newline,
and writing the tags out again, each followed by a newline, gives the text
back, with a final newline added when the text did not end in one. -/
theorem C7_load_replaces_sequence_only (p : MyDrawPanel) (text : String) :
    (LoadFromFile p (some text)).undoStack = p.undoStack ∧
    (LoadFromFile p (some text)).redoStack = p.redoStack ∧
    (LoadFromFile p (some text)).copiedShape = p.copiedShape ∧
    (LoadFromFile p (some text)).m_zoom = p.m_zoom ∧
    (LoadFromFile p (some text)).m_shapes = (LoadFromFile ctor (some text)).m_shapes ∧
    (∀ t ∈ (LoadFromFile p (some text)).m_shapes, '\n' ∉ t.data) ∧
    SaveToFile (LoadFromFile p (some text))
      = (if text = "" ∨ text.data.getLast? = some '\n' then text else text ++ "\n") := by
  refine ⟨rfl, rfl, rfl, rfl, rfl, ?_, ?_⟩
  · obtain ⟨ls, e1, e2, _⟩ := loadLoop_spec (text.length + 1) text.data [] (Nat.le_succ text.data.length)
    simp only [LoadFromFile, e1, List.nil_append]
    exact e2
  · obtain ⟨ls, e1, _, e3⟩ := loadLoop_spec (text.length + 1) text.data [] (Nat.le_succ text.data.length)
    apply String.ext
    rw [SaveToFile_data]
    simp only [LoadFromFile, e1, List.nil_append, e3]
    have hd : text = "" ↔ text.data = [] := by
      constructor
      · intro h
        rw [h]
      · intro h
        exact String.ext h
    by_cases hc : text.data = [] ∨ text.data.getLast? = some '\n'
    · have hc' : text = "" ∨ text.data.getLast? = some '\n' := by
        rcases hc with hc | hc
        · exact Or.inl (hd.mpr hc)
        · exact Or.inr hc
      rw [if_pos hc, if_pos hc']
    · have hc' : ¬ (text = "" ∨ text.data.getLast? = some '\n') := by
        rintro (h | h)
        · exact hc (Or.inl (hd.mp h))
        · exact hc (Or.inr h)
      rw [if_neg hc, if_neg hc', String.data_append]
